import Mathlib

/-!
Verification of the SubSnap subscription-statistics module (`src/lib/stats.ts`).

The module is pure arithmetic over subscription records plus JavaScript
`Date` calendar arithmetic.  We embed JS dates as records holding a year,
a zero-based month, a day of month and the milliseconds elapsed within the
day; JS `Date` mutators (`setDate`, `setMonth`, `setFullYear`) are modelled
by re-encoding the requested components and normalizing, which is exactly
the observable behaviour of the ECMAScript `MakeDay`/`MakeDate` algorithm
in a fixed UTC-like zone with no offset transitions.  Timestamps
(`Date.prototype.getTime`, used by comparisons) are integer milliseconds.
JS numbers for prices are embedded as exact rationals; `Math.floor` of a
quotient of integers by a positive integer is `Int`'s `/` (Euclidean
division, which rounds toward negative infinity for positive divisors).
-/

/-- Milliseconds per day, the divisor `1000 * 60 * 60 * 24` from the source. -/
def msPerDay : ℤ := 86400000

/-- Gregorian leap-year rule, as used by ECMAScript calendar arithmetic. -/
def isLeap (y : ℤ) : Bool :=
  (y % 4 == 0 && y % 100 != 0) || y % 400 == 0

/-- Number of days in month `m` (zero-based: January is 0) of year `y`. -/
def daysInMonth (y : ℤ) (m : ℕ) : ℤ :=
  match m with
  | 1 => if isLeap y then 29 else 28
  | 3 => 30
  | 5 => 30
  | 8 => 30
  | 10 => 30
  | _ => 31

/-- Days elapsed in a year before month `m` begins (zero-based month). -/
def cumDaysBefore (leap : Bool) (m : ℕ) : ℤ :=
  let l : ℤ := if leap then 1 else 0
  match m with
  | 0 => 0
  | 1 => 31
  | 2 => 59 + l
  | 3 => 90 + l
  | 4 => 120 + l
  | 5 => 151 + l
  | 6 => 181 + l
  | 7 => 212 + l
  | 8 => 243 + l
  | 9 => 273 + l
  | 10 => 304 + l
  | _ => 334 + l

/-- Days from the calendar origin (1 January of year 0) to 1 January of year `y`. -/
def daysBeforeYear (y : ℤ) : ℤ :=
  365 * y + (y + 3) / 4 - (y + 99) / 100 + (y + 399) / 400

/-- Absolute day number of the (possibly unnormalized) calendar date
`(y, m, d)`: day `d` of zero-based month `m < 12` of year `y`.  Linear in
`d`, so an out-of-range day denotes the day that far before/after the
month's first day, matching ECMAScript `MakeDay`. -/
def dayNumber (y : ℤ) (m : ℕ) (d : ℤ) : ℤ :=
  daysBeforeYear y + cumDaysBefore (isLeap y) m + d - 1

/-- A JavaScript `Date`: year, zero-based month, day of month, and
milliseconds within the day.  A value produced by the `Date` constructor or
mutators is always normalized (see `Normalized`). -/
structure JSDate where
  year : ℤ
  month : ℕ
  day : ℤ
  ms : ℤ
deriving Repr, DecidableEq

/-- The timestamp of a date: milliseconds from the origin
(`Date.prototype.getTime`, the value used by `<`/`<=` comparisons on dates). -/
def JSDate.ts (dt : JSDate) : ℤ :=
  dayNumber dt.year dt.month dt.day * msPerDay + dt.ms

/-- Year of the month preceding month `m` of year `y`. -/
def prevY (y : ℤ) (m : ℕ) : ℤ := if m = 0 then y - 1 else y

/-- Zero-based index of the month preceding month `m`. -/
def prevM (m : ℕ) : ℕ := if m = 0 then 11 else m - 1

/-- Year of the month following month `m` of year `y`. -/
def succY (y : ℤ) (m : ℕ) : ℤ := if m = 11 then y + 1 else y

/-- Zero-based index of the month following month `m`. -/
def succM (m : ℕ) : ℕ := if m = 11 then 0 else m + 1

/-- Normalize an out-of-range day of month by borrowing from or carrying
into adjacent months, as ECMAScript date normalization does.  Expects the
month already reduced below 12. -/
def normD (y : ℤ) (m : ℕ) (d : ℤ) : ℤ × ℕ × ℤ :=
  if d < 1 then
    normD (prevY y m) (prevM m) (d + daysInMonth (prevY y m) (prevM m))
  else if daysInMonth y m < d then
    normD (succY y m) (succM m) (d - daysInMonth y m)
  else
    (y, m, d)
termination_by ((if d < 1 then 1 else 0), (1 - d).toNat + d.toNat)
decreasing_by
  · have h28 : 28 ≤ daysInMonth (prevY y m) (prevM m) ∧
      daysInMonth (prevY y m) (prevM m) ≤ 31 := by
      unfold daysInMonth; split <;> try split
      all_goals omega
    simp only [Prod.lex_iff]
    split_ifs <;> omega
  · have h28 : 28 ≤ daysInMonth y m ∧ daysInMonth y m ≤ 31 := by
      unfold daysInMonth; split <;> try split
      all_goals omega
    simp only [Prod.lex_iff]
    split_ifs <;> omega

/-- Build the normalized date with components year `y`, month `m`, day `d`
(each an arbitrary integer) and `ms` milliseconds within the day: the
ECMAScript `MakeDay` normalization underlying the `Date` constructor and
the `setFullYear`/`setMonth`/`setDate` mutators. -/
def normalizeDate (y m d ms : ℤ) : JSDate :=
  let y1 := y + m / 12
  let m1 := (m % 12).toNat
  let r := normD y1 m1 d
  ⟨r.1, r.2.1, r.2.2, ms⟩

/-- `Date.prototype.setDate`: replace the day of month and normalize. -/
def setDate (dt : JSDate) (d : ℤ) : JSDate :=
  normalizeDate dt.year dt.month d dt.ms

/-- `Date.prototype.setMonth`: replace the (zero-based) month and normalize. -/
def setMonth (dt : JSDate) (m : ℤ) : JSDate :=
  normalizeDate dt.year m dt.day dt.ms

/-- `Date.prototype.setFullYear`: replace the year and normalize. -/
def setFullYear (dt : JSDate) (y : ℤ) : JSDate :=
  normalizeDate y dt.month dt.day dt.ms

/-- `new Date(y, m, d)`: midnight at the start of the normalized date. -/
def mkDate (y m d : ℤ) : JSDate :=
  normalizeDate y m d 0

/-- The invariant every JS-visible `Date` value satisfies: month below 12,
day within the month, milliseconds within the day. -/
def Normalized (dt : JSDate) : Prop :=
  dt.month < 12 ∧ 1 ≤ dt.day ∧ dt.day ≤ daysInMonth dt.year dt.month ∧
    0 ≤ dt.ms ∧ dt.ms < msPerDay

instance (dt : JSDate) : Decidable (Normalized dt) := by
  unfold Normalized; infer_instance

theorem daysInMonth_bounds (y : ℤ) (m : ℕ) :
    28 ≤ daysInMonth y m ∧ daysInMonth y m ≤ 31 := by
  unfold daysInMonth; split <;> try split
  all_goals omega

theorem daysBeforeYear_succ (y : ℤ) :
    daysBeforeYear (y + 1) = daysBeforeYear y + 365 + (if isLeap y then 1 else 0) := by
  unfold daysBeforeYear isLeap
  simp only [Bool.or_eq_true, Bool.and_eq_true, beq_iff_eq, bne_iff_ne, ne_eq,
    decide_eq_true_eq]
  split_ifs <;> omega

theorem dayNumber_add (y : ℤ) (m : ℕ) (d c : ℤ) :
    dayNumber y m (d + c) = dayNumber y m d + c := by
  unfold dayNumber; ring

theorem succM_lt (m : ℕ) (hm : m < 12) : succM m < 12 := by
  unfold succM; split <;> omega

theorem prevM_lt (m : ℕ) (hm : m < 12) : prevM m < 12 := by
  unfold prevM; split <;> omega

theorem dayNumber_succMonth (y : ℤ) (m : ℕ) (hm : m < 12) (d : ℤ) :
    dayNumber (succY y m) (succM m) d = dayNumber y m d + daysInMonth y m := by
  have hy := daysBeforeYear_succ y
  interval_cases m <;>
    simp only [dayNumber, succY, succM, daysInMonth, cumDaysBefore] <;>
    norm_num <;> split_ifs at hy ⊢ <;> omega

theorem succ_prevMonth (y : ℤ) (m : ℕ) (hm : m < 12) :
    succY (prevY y m) (prevM m) = y ∧ succM (prevM m) = m := by
  unfold succY succM prevY prevM
  constructor <;> split_ifs <;> omega

theorem dayNumber_prevMonth (y : ℤ) (m : ℕ) (hm : m < 12) (d : ℤ) :
    dayNumber (prevY y m) (prevM m) (d + daysInMonth (prevY y m) (prevM m)) =
      dayNumber y m d := by
  have h := dayNumber_succMonth (prevY y m) (prevM m) (prevM_lt m hm) d
  rw [(succ_prevMonth y m hm).1, (succ_prevMonth y m hm).2] at h
  rw [dayNumber_add, ← h]

theorem normD_spec (y : ℤ) (m : ℕ) (d : ℤ) : m < 12 →
    dayNumber (normD y m d).1 (normD y m d).2.1 (normD y m d).2.2 = dayNumber y m d ∧
    (normD y m d).2.1 < 12 ∧ 1 ≤ (normD y m d).2.2 ∧
    (normD y m d).2.2 ≤ daysInMonth (normD y m d).1 (normD y m d).2.1 := by
  induction y, m, d using normD.induct with
  | case1 y m d h ih =>
    intro hm
    rw [normD, if_pos h]
    have ih' := ih (prevM_lt m hm)
    refine ⟨?_, ih'.2.1, ih'.2.2⟩
    rw [ih'.1, dayNumber_prevMonth y m hm]
  | case2 y m d h1 h2 ih =>
    intro hm
    rw [normD, if_neg h1, if_pos h2]
    have ih' := ih (succM_lt m hm)
    refine ⟨?_, ih'.2.1, ih'.2.2⟩
    rw [ih'.1]
    rw [dayNumber_succMonth y m hm (d - daysInMonth y m)]
    have ha := dayNumber_add y m (d - daysInMonth y m) (daysInMonth y m)
    have h3 : d - daysInMonth y m + daysInMonth y m = d := by ring
    rw [h3] at ha
    omega
  | case3 y m d h1 h2 =>
    intro hm
    rw [normD, if_neg h1, if_neg h2]
    exact ⟨rfl, hm, by show 1 ≤ d; omega, by show d ≤ daysInMonth y m; omega⟩

/-- Day number for an arbitrary integer month index: the month is first
reduced below 12 with floor semantics, as `normalizeDate` does. -/
def dayNumberZ (y m d : ℤ) : ℤ :=
  dayNumber (y + m / 12) ((m % 12).toNat) d

theorem dayNumberZ_coe (y : ℤ) (m : ℕ) (hm : m < 12) (d : ℤ) :
    dayNumberZ y m d = dayNumber y m d := by
  unfold dayNumberZ
  have h1 : ((m : ℤ)) / 12 = 0 := by omega
  have h2 : (((m : ℤ)) % 12).toNat = m := by omega
  rw [h1, h2, add_zero]

theorem ts_normalizeDate (y m d ms : ℤ) :
    (normalizeDate y m d ms).ts = dayNumberZ y m d * msPerDay + ms := by
  unfold normalizeDate JSDate.ts dayNumberZ
  have h := normD_spec (y + m / 12) ((m % 12).toNat) d (by omega)
  simp only []
  rw [h.1]

theorem normalizeDate_month (y m d ms : ℤ) : (normalizeDate y m d ms).month < 12 := by
  unfold normalizeDate
  exact (normD_spec (y + m / 12) ((m % 12).toNat) d (by omega)).2.1

theorem normalizeDate_normalized (y m d ms : ℤ) (h1 : 0 ≤ ms) (h2 : ms < msPerDay) :
    Normalized (normalizeDate y m d ms) := by
  have h := normD_spec (y + m / 12) ((m % 12).toNat) d (by omega)
  exact ⟨h.2.1, h.2.2.1, h.2.2.2, h1, h2⟩

theorem ts_setDate (dt : JSDate) (hm : dt.month < 12) (d : ℤ) :
    (setDate dt d).ts = dt.ts + (d - dt.day) * msPerDay := by
  unfold setDate
  rw [ts_normalizeDate, dayNumberZ_coe _ _ hm]
  unfold JSDate.ts dayNumber; ring

theorem ts_setFullYear (dt : JSDate) (hm : dt.month < 12) (y : ℤ) :
    (setFullYear dt y).ts = dt.ts +
      ((daysBeforeYear y - daysBeforeYear dt.year) +
        (cumDaysBefore (isLeap y) dt.month - cumDaysBefore (isLeap dt.year) dt.month)) *
        msPerDay := by
  unfold setFullYear
  rw [ts_normalizeDate, dayNumberZ_coe _ _ hm]
  unfold JSDate.ts dayNumber; ring

/-- Total day count of `k` consecutive calendar months starting at month
`m` of year `y`. -/
def sumLen (y : ℤ) (m : ℕ) (k : ℕ) : ℤ :=
  match k with
  | 0 => 0
  | Nat.succ k => daysInMonth y m + sumLen (succY y m) (succM m) k

theorem dayNumberZ_shift12 (y m d : ℤ) :
    dayNumberZ y (m + 12) d = dayNumberZ (y + 1) m d := by
  unfold dayNumberZ
  have e1 : y + (m + 12) / 12 = y + 1 + m / 12 := by omega
  have e2 : ((m + 12) % 12).toNat = (m % 12).toNat := by omega
  rw [e1, e2]

theorem dayNumberZ_add_months :
    ∀ (k : ℕ) (y : ℤ) (m : ℕ), m < 12 → ∀ d,
      dayNumberZ y (↑m + ↑k) d = dayNumber y m d + sumLen y m k := by
  intro k
  induction k with
  | zero =>
    intro y m hm d
    simp only [sumLen, Nat.cast_zero, add_zero]
    exact dayNumberZ_coe y m hm d
  | succ k ih =>
    intro y m hm d
    by_cases h : m = 11
    · subst h
      have e : ((11 : ℕ) : ℤ) + ((k + 1 : ℕ) : ℤ) = (((0 : ℕ) : ℤ) + ↑k) + 12 := by
        push_cast; ring
      rw [e, dayNumberZ_shift12, ih (y + 1) 0 (by omega) d]
      have hstep := dayNumber_succMonth y 11 (by omega) d
      have hsY : succY y 11 = y + 1 := by unfold succY; simp
      have hsM : succM 11 = 0 := by unfold succM; simp
      rw [hsY, hsM] at hstep
      rw [show sumLen y 11 (k + 1) =
        daysInMonth y 11 + sumLen (succY y 11) (succM 11) k from rfl, hsY, hsM]
      omega
    · have hm' : m + 1 < 12 := by omega
      have e : ((m : ℕ) : ℤ) + ((k + 1 : ℕ) : ℤ) = ((m + 1 : ℕ) : ℤ) + ↑k := by
        push_cast; ring
      rw [e, ih y (m + 1) hm' d]
      have hsY : succY y m = y := by unfold succY; simp [h]
      have hsM : succM m = m + 1 := by unfold succM; simp [h]
      have hstep := dayNumber_succMonth y m hm d
      rw [hsY, hsM] at hstep
      rw [show sumLen y m (k + 1) =
        daysInMonth y m + sumLen (succY y m) (succM m) k from rfl, hsY, hsM]
      omega

theorem ts_setMonth_add (dt : JSDate) (hm : dt.month < 12) (k : ℕ) :
    (setMonth dt (↑dt.month + ↑k)).ts = dt.ts + sumLen dt.year dt.month k * msPerDay := by
  unfold setMonth
  rw [ts_normalizeDate, dayNumberZ_add_months k dt.year dt.month hm]
  unfold JSDate.ts; ring

theorem sumLen_ge_28 : ∀ (k : ℕ) (y : ℤ) (m : ℕ), 28 * k ≤ sumLen y m k := by
  intro k
  induction k with
  | zero => intro y m; simp [sumLen]
  | succ k ih =>
    intro y m
    have h1 := daysInMonth_bounds y m
    have h2 := ih (succY y m) (succM m)
    rw [show sumLen y m (k + 1) =
      daysInMonth y m + sumLen (succY y m) (succM m) k from rfl]
    push_cast
    omega

theorem sumLen_twelve (y : ℤ) (m : ℕ) (hm : m < 12) : 365 ≤ sumLen y m 12 := by
  interval_cases m <;>
    simp [sumLen, succY, succM, daysInMonth] <;>
    split_ifs <;> omega

/-- The calendar position `k` months after month `m` of year `y`. -/
def afterMonths (y : ℤ) (m : ℕ) (k : ℕ) : ℤ × ℕ :=
  match k with
  | 0 => (y, m)
  | Nat.succ k => afterMonths (succY y m) (succM m) k

theorem afterMonths_lt : ∀ (k : ℕ) (y : ℤ) (m : ℕ), m < 12 → (afterMonths y m k).2 < 12 := by
  intro k
  induction k with
  | zero => intro y m hm; exact hm
  | succ k ih => intro y m hm; exact ih (succY y m) (succM m) (succM_lt m hm)

theorem sumLen_split : ∀ (a : ℕ) (y : ℤ) (m : ℕ) (b : ℕ),
    sumLen y m (a + b) =
      sumLen y m a + sumLen (afterMonths y m a).1 (afterMonths y m a).2 b := by
  intro a
  induction a with
  | zero => intro y m b; simp [sumLen, afterMonths]
  | succ a ih =>
    intro y m b
    rw [show a + 1 + b = (a + b) + 1 by omega]
    rw [show sumLen y m ((a + b) + 1) =
      daysInMonth y m + sumLen (succY y m) (succM m) (a + b) from rfl]
    rw [ih (succY y m) (succM m) b]
    rw [show sumLen y m (a + 1) =
      daysInMonth y m + sumLen (succY y m) (succM m) a from rfl]
    rw [show afterMonths y m (a + 1) = afterMonths (succY y m) (succM m) a from rfl]
    ring

theorem sumLen_lb : ∀ (k : ℕ) (y : ℤ) (m : ℕ), m < 12 → 30 * k - 28 ≤ sumLen y m k := by
  intro k
  induction k using Nat.strong_induction_on with
  | _ k ih =>
    intro y m hm
    by_cases hk : k < 12
    · have := sumLen_ge_28 k y m
      omega
    · obtain ⟨k', rfl⟩ : ∃ k', k = 12 + k' := ⟨k - 12, by omega⟩
      rw [sumLen_split 12 y m k']
      have h1 := sumLen_twelve y m hm
      have h2 := ih k' (by omega) (afterMonths y m 12).1 (afterMonths y m 12).2
        (afterMonths_lt 12 y m hm)
      push_cast at h2 ⊢
      omega

theorem daysBeforeYear_add (y : ℤ) : ∀ (n : ℕ),
    365 * n ≤ daysBeforeYear (y + n) - daysBeforeYear y := by
  intro n
  induction n with
  | zero => simp
  | succ n ih =>
    have h := daysBeforeYear_succ (y + n)
    have e : y + ((n : ℤ) + 1) = (y + n) + 1 := by ring
    push_cast
    rw [e, h]
    split_ifs at h ⊢ <;> push_cast at ih <;> omega

theorem cumDaysBefore_diff (l1 l2 : Bool) (m : ℕ) :
    cumDaysBefore l1 m - cumDaysBefore l2 m ≤ 1 ∧
      -1 ≤ cumDaysBefore l1 m - cumDaysBefore l2 m := by
  rcases m with _|_|_|_|_|_|_|_|_|_|_|m <;>
    cases l1 <;> cases l2 <;> simp [cumDaysBefore]

/-- An itemized sub-charge of a subscription (`lib/types.ts`). -/
structure Charge where
  amount : ℚ
  dayOfMonth : ℤ
  startDate : JSDate
deriving Repr, DecidableEq

/-- A subscription record, with the fields the statistics module reads.
`recurringDuration` is carried as its literal string value, which is what
the source's `switch` statements compare against; prices are exact
rationals. -/
structure Subscription where
  title : String
  price : ℚ
  currency : String
  recurringDuration : String
  startDate : JSDate
  charges : Option (List Charge)
deriving Repr, DecidableEq

/-- `getTotalPrice` from `src/lib/stats.ts`. -/
def getTotalPrice (subscription : Subscription) : ℚ :=
  match subscription.charges with
  | some charges =>
    if charges.length > 0 then
      charges.foldl (fun sum charge => sum + charge.amount) 0
    else
      subscription.price
  | none => subscription.price

/-- `calculateMonthlyCost` from `src/lib/stats.ts`. -/
def calculateMonthlyCost (price : ℚ) (duration : String) : ℚ :=
  if duration = "weekly" then price * 4.33
  else if duration = "bi-weekly" then price * 2.17
  else if duration = "monthly" then price
  else if duration = "quarterly" then price / 3
  else if duration = "semi-annually" then price / 6
  else if duration = "yearly" then price / 12
  else price

/-- `getDaysInDuration` from `src/lib/stats.ts`. -/
def getDaysInDuration (duration : String) : ℤ :=
  if duration = "weekly" then 7
  else if duration = "bi-weekly" then 14
  else if duration = "monthly" then 30
  else if duration = "quarterly" then 90
  else if duration = "semi-annually" then 180
  else if duration = "yearly" then 365
  else 30

/-- `calculateTotalSpent` from `src/lib/stats.ts`; `now` is the sampled
wall clock. -/
def calculateTotalSpent (subscription : Subscription) (now : JSDate) : ℚ :=
  if subscription.startDate.ts > now.ts then 0
  else
    let daysSinceStart := (now.ts - subscription.startDate.ts) / msPerDay
    let daysInDuration := getDaysInDuration subscription.recurringDuration
    let billingCycles := daysSinceStart / daysInDuration + 1
    getTotalPrice subscription * (billingCycles : ℚ)

/-- `getMostCostlySubscription` from `src/lib/stats.ts`: JS `reduce`
without an initial value is a fold over the tail seeded with the head. -/
def getMostCostlySubscription (subscriptions : List Subscription) : Option Subscription :=
  match subscriptions with
  | [] => none
  | first :: rest =>
    some (rest.foldl (fun mostCostly current =>
      let mostCostlyTotal := getTotalPrice mostCostly
      let currentTotal := getTotalPrice current
      let mostCostlyMonthly :=
        calculateMonthlyCost mostCostlyTotal mostCostly.recurringDuration
      let currentMonthly := calculateMonthlyCost currentTotal current.recurringDuration
      if currentMonthly > mostCostlyMonthly then current else mostCostly) first)

/-- `calculateAverageMonthlyCost` from `src/lib/stats.ts`. -/
def calculateAverageMonthlyCost (subscriptions : List Subscription) : ℚ :=
  if subscriptions.length = 0 then 0
  else
    (subscriptions.foldl (fun sum sub =>
      sum + calculateMonthlyCost (getTotalPrice sub) sub.recurringDuration) 0) /
      (subscriptions.length : ℚ)

/-- Lookup in a JS object modelled as an insertion-ordered association list. -/
def recLookup (k : String) : List (String × List Subscription) → Option (List Subscription)
  | [] => none
  | e :: rest => if e.1 = k then some e.2 else recLookup k rest

/-- `if (!acc[key]) acc[key] = []; acc[key].push(sub)` on a JS object:
append to the existing group in place, or add a new key at the end
(JS objects preserve string-key insertion order). -/
def pushEntry (acc : List (String × List Subscription)) (k : String)
    (s : Subscription) : List (String × List Subscription) :=
  if (recLookup k acc).isSome then
    acc.map (fun e => if e.1 = k then (e.1, e.2 ++ [s]) else e)
  else
    acc ++ [(k, [s])]

/-- `groupByCurrency` from `src/lib/stats.ts`. -/
def groupByCurrency (subscriptions : List Subscription) :
    List (String × List Subscription) :=
  subscriptions.foldl (fun acc sub => pushEntry acc sub.currency sub) []

/-- `calculateNextRenewalDate` from `src/lib/stats.ts`; `now` is the
sampled wall clock.  `nextRenewal` starts as a copy of `startDate`, so the
first mutation reads `startDate`'s components and the correction pass reads
the mutated date's own components, as in the source. -/
def calculateNextRenewalDate (subscription : Subscription) (now : JSDate) : JSDate :=
  let startDate := subscription.startDate
  if startDate.ts > now.ts then startDate
  else
    let daysSinceStart := (now.ts - startDate.ts) / msPerDay
    let daysInDuration := getDaysInDuration subscription.recurringDuration
    let cyclesPassed := daysSinceStart / daysInDuration
    let nextRenewal :=
      if subscription.recurringDuration = "weekly" then
        setDate startDate (startDate.day + (cyclesPassed + 1) * 7)
      else if subscription.recurringDuration = "bi-weekly" then
        setDate startDate (startDate.day + (cyclesPassed + 1) * 14)
      else if subscription.recurringDuration = "monthly" then
        setMonth startDate (↑startDate.month + cyclesPassed + 1)
      else if subscription.recurringDuration = "quarterly" then
        setMonth startDate (↑startDate.month + (cyclesPassed + 1) * 3)
      else if subscription.recurringDuration = "semi-annually" then
        setMonth startDate (↑startDate.month + (cyclesPassed + 1) * 6)
      else if subscription.recurringDuration = "yearly" then
        setFullYear startDate (startDate.year + cyclesPassed + 1)
      else startDate
    if nextRenewal.ts ≤ now.ts then
      if subscription.recurringDuration = "weekly" then
        setDate nextRenewal (nextRenewal.day + 7)
      else if subscription.recurringDuration = "bi-weekly" then
        setDate nextRenewal (nextRenewal.day + 14)
      else if subscription.recurringDuration = "monthly" then
        setMonth nextRenewal (↑nextRenewal.month + 1)
      else if subscription.recurringDuration = "quarterly" then
        setMonth nextRenewal (↑nextRenewal.month + 3)
      else if subscription.recurringDuration = "semi-annually" then
        setMonth nextRenewal (↑nextRenewal.month + 6)
      else if subscription.recurringDuration = "yearly" then
        setFullYear nextRenewal (nextRenewal.year + 1)
      else nextRenewal
    else nextRenewal

/-- `getRenewalsThisMonth` from `src/lib/stats.ts`.  The JS `sort` with
comparator `a.ts - b.ts` is a stable ascending sort, modelled by
`mergeSort`. -/
def getRenewalsThisMonth (subscriptions : List Subscription) (now : JSDate) :
    List Subscription :=
  let startOfMonth := mkDate now.year (↑now.month) 1
  let endOfMonth := mkDate now.year (↑now.month + 1) 0
  (((subscriptions.map (fun sub => (sub, calculateNextRenewalDate sub now))).filter
      (fun p => decide (startOfMonth.ts ≤ p.2.ts) && decide (p.2.ts ≤ endOfMonth.ts))).mergeSort
      (fun a b => decide (a.2.ts ≤ b.2.ts))).map Prod.fst

/-- `groupByDuration` from `src/lib/stats.ts`. -/
def groupByDuration (subscriptions : List Subscription) :
    List (String × List Subscription) :=
  subscriptions.foldl (fun acc sub => pushEntry acc sub.recurringDuration sub) []

/-- `getNextRenewal` from `src/lib/stats.ts`: earliest projected renewal,
via the same stable ascending sort. -/
def getNextRenewal (subscriptions : List Subscription) (now : JSDate) :
    Option (Subscription × JSDate) :=
  if subscriptions.length = 0 then none
  else
    ((subscriptions.map (fun sub => (sub, calculateNextRenewalDate sub now))).mergeSort
      (fun a b => decide (a.2.ts ≤ b.2.ts))).head?

theorem foldl_add_amount (cs : List Charge) : ∀ (a : ℚ),
    cs.foldl (fun sum charge => sum + charge.amount) a = a + (cs.map Charge.amount).sum := by
  induction cs with
  | nil => intro a; simp
  | cons c cs ih => intro a; simp [ih]; ring

/-- C3: `getTotalPrice` returns the sum of the charge amounts when the
charges list exists and is non-empty, and the flat `price` field whenever
`charges` is absent or empty. -/
theorem getTotalPrice_spec (sub : Subscription) :
    (∀ cs, sub.charges = some cs → cs ≠ [] →
      getTotalPrice sub = (cs.map Charge.amount).sum) ∧
    ((sub.charges = none ∨ sub.charges = some []) → getTotalPrice sub = sub.price) := by
  constructor
  · intro cs hcs hne
    unfold getTotalPrice
    rw [hcs]
    show (if cs.length > 0 then cs.foldl (fun sum charge => sum + charge.amount) 0
      else sub.price) = (cs.map Charge.amount).sum
    rw [if_pos (List.length_pos.mpr hne), foldl_add_amount]
    ring
  · rintro (h | h) <;> simp [getTotalPrice, h]

def chargeA : Charge := ⟨3, 1, ⟨2024, 0, 1, 0⟩⟩

def chargeB : Charge := ⟨4, 1, ⟨2024, 0, 1, 0⟩⟩

def subWithCharges : Subscription :=
  ⟨"itemized", 99, "USD", "monthly", ⟨2024, 0, 1, 0⟩, some [chargeA, chargeB]⟩

/-- Witness for C3 at a concrete subscription with two itemized charges. -/
theorem getTotalPrice_spec_witness :
    getTotalPrice subWithCharges = ([chargeA, chargeB].map Charge.amount).sum :=
  (getTotalPrice_spec subWithCharges).1 [chargeA, chargeB] rfl (by simp)

/-- C4: `calculateMonthlyCost` applies exactly the fixed conversion table
(weekly ×4.33, bi-weekly ×2.17, monthly ×1, quarterly ÷3, semi-annually ÷6,
yearly ÷12), and any unknown duration falls through to the monthly factor. -/
theorem calculateMonthlyCost_spec (price : ℚ) (duration : String) :
    calculateMonthlyCost price duration =
      if duration = "weekly" then price * (433 / 100)
      else if duration = "bi-weekly" then price * (217 / 100)
      else if duration = "monthly" then price
      else if duration = "quarterly" then price / 3
      else if duration = "semi-annually" then price / 6
      else if duration = "yearly" then price / 12
      else price := by
  unfold calculateMonthlyCost
  split_ifs <;> norm_num

/-- C5: `calculateMonthlyCost` is scale-linear in the price for every
duration. -/
theorem calculateMonthlyCost_linear (k price : ℚ) (duration : String) :
    calculateMonthlyCost (k * price) duration = k * calculateMonthlyCost price duration := by
  unfold calculateMonthlyCost
  split_ifs <;> ring

/-- C9: the aggregations return neutral values on the empty list: `null`
for the most costly subscription, `0` for the average monthly cost, `null`
for the next renewal. -/
theorem emptyList_neutral :
    getMostCostlySubscription [] = none ∧
    calculateAverageMonthlyCost [] = 0 ∧
    ∀ (now : JSDate), getNextRenewal [] now = none :=
  ⟨rfl, rfl, fun _ => rfl⟩

def subMonthly12 : Subscription :=
  ⟨"app", 12, "USD", "monthly", ⟨2024, 0, 1, 0⟩, none⟩

def nowFeb10 : JSDate := ⟨2024, 1, 10, 0⟩

/-- C2: `calculateTotalSpent` returns 0 for a strictly-future start date
and otherwise `getTotalPrice` times `floor(daysSinceStart / daysInDuration) + 1`,
with `daysSinceStart = floor((now − start) / 1 day)` and the day counts
taken from the fixed table (weekly 7, bi-weekly 14, monthly 30, quarterly
90, semi-annually 180, yearly 365, default 30); a monthly subscription of
price 12 started 40 days ago yields 24. -/
theorem calculateTotalSpent_spec :
    (∀ (sub : Subscription) (now : JSDate), now.ts < sub.startDate.ts →
      calculateTotalSpent sub now = 0) ∧
    (∀ (sub : Subscription) (now : JSDate), sub.startDate.ts ≤ now.ts →
      calculateTotalSpent sub now =
        getTotalPrice sub *
          ((((now.ts - sub.startDate.ts) / msPerDay) /
            getDaysInDuration sub.recurringDuration + 1 : ℤ) : ℚ)) ∧
    (getDaysInDuration "weekly" = 7 ∧ getDaysInDuration "bi-weekly" = 14 ∧
      getDaysInDuration "monthly" = 30 ∧ getDaysInDuration "quarterly" = 90 ∧
      getDaysInDuration "semi-annually" = 180 ∧ getDaysInDuration "yearly" = 365 ∧
      ∀ d, d ∉ (["weekly", "bi-weekly", "monthly", "quarterly",
        "semi-annually", "yearly"] : List String) → getDaysInDuration d = 30) ∧
    calculateTotalSpent subMonthly12 nowFeb10 = 24 := by
  refine ⟨?_, ?_, ⟨rfl, rfl, rfl, rfl, rfl, rfl, ?_⟩, ?_⟩
  · intro sub now h
    unfold calculateTotalSpent
    rw [if_pos (by omega)]
  · intro sub now h
    unfold calculateTotalSpent
    rw [if_neg (by omega)]
  · intro d hd
    simp only [List.mem_cons, List.not_mem_nil, or_false, not_or] at hd
    unfold getDaysInDuration
    split_ifs <;> tauto
  · show calculateTotalSpent subMonthly12 nowFeb10 = 24
    simp only [calculateTotalSpent]
    rw [if_neg (by decide)]
    show getTotalPrice subMonthly12 * ((2 : ℤ) : ℚ) = 24
    norm_num [getTotalPrice, subMonthly12]

/-- Witness for C2's non-future branch at the concrete 40-days-ago
monthly subscription. -/
theorem calculateTotalSpent_spec_witness :
    calculateTotalSpent subMonthly12 nowFeb10 =
      getTotalPrice subMonthly12 *
        ((((nowFeb10.ts - subMonthly12.startDate.ts) / msPerDay) /
          getDaysInDuration subMonthly12.recurringDuration + 1 : ℤ) : ℚ) :=
  calculateTotalSpent_spec.2.1 subMonthly12 nowFeb10 (by decide)


theorem recFst_push (k : String) (s : Subscription) (e : String × List Subscription) :
    (if e.1 = k then (e.1, e.2 ++ [s]) else e).1 = e.1 := by
  split <;> rfl

theorem recLookup_map_same (k : String) (s : Subscription) :
    ∀ (acc : List (String × List Subscription)),
      recLookup k (acc.map (fun e => if e.1 = k then (e.1, e.2 ++ [s]) else e)) =
        (recLookup k acc).map (fun v => v ++ [s]) := by
  intro acc
  induction acc with
  | nil => rfl
  | cons e rest ih =>
    rw [List.map_cons, recLookup, recLookup, recFst_push]
    by_cases h : e.1 = k
    · rw [if_pos h, if_pos h, if_pos h, Option.map_some']
    · rw [if_neg h, if_neg h, ih]

theorem recLookup_append_new (k : String) (s : Subscription) :
    ∀ (acc : List (String × List Subscription)), recLookup k acc = none →
      recLookup k (acc ++ [(k, [s])]) = some [s] := by
  intro acc
  induction acc with
  | nil => intro _; simp [recLookup]
  | cons e rest ih =>
    intro h
    rw [recLookup] at h
    by_cases he : e.1 = k
    · rw [if_pos he] at h; exact absurd h (by simp)
    · rw [if_neg he] at h
      rw [List.cons_append, recLookup, if_neg he]
      exact ih h

theorem recLookup_map_other (k k' : String) (s : Subscription) (h : k' ≠ k) :
    ∀ (acc : List (String × List Subscription)),
      recLookup k' (acc.map (fun e => if e.1 = k then (e.1, e.2 ++ [s]) else e)) =
        recLookup k' acc := by
  intro acc
  induction acc with
  | nil => rfl
  | cons e rest ih =>
    rw [List.map_cons, recLookup, recLookup, recFst_push]
    by_cases he : e.1 = k'
    · have hek : ¬ e.1 = k := by rw [he]; exact h
      rw [if_pos he, if_pos he, if_neg hek]
    · rw [if_neg he, if_neg he, ih]

theorem recLookup_append_other (k k' : String) (s : Subscription) (h : k' ≠ k) :
    ∀ (acc : List (String × List Subscription)),
      recLookup k' (acc ++ [(k, [s])]) = recLookup k' acc := by
  intro acc
  induction acc with
  | nil =>
    rw [List.nil_append]
    simp [recLookup, Ne.symm h]
  | cons e rest ih =>
    rw [List.cons_append, recLookup, recLookup]
    by_cases he : e.1 = k'
    · rw [if_pos he, if_pos he]
    · rw [if_neg he, if_neg he, ih]

theorem recLookup_pushEntry_same (acc : List (String × List Subscription)) (k : String)
    (s : Subscription) :
    recLookup k (pushEntry acc k s) = some ((recLookup k acc).getD [] ++ [s]) := by
  unfold pushEntry
  by_cases h : (recLookup k acc).isSome
  · rw [if_pos h, recLookup_map_same]
    obtain ⟨v, hv⟩ := Option.isSome_iff_exists.mp h
    rw [hv]; rfl
  · rw [if_neg h]
    have hn : recLookup k acc = none := Option.not_isSome_iff_eq_none.mp h
    rw [recLookup_append_new k s acc hn, hn]
    rfl

theorem recLookup_pushEntry_other (acc : List (String × List Subscription))
    (k k' : String) (s : Subscription) (h : k' ≠ k) :
    recLookup k' (pushEntry acc k s) = recLookup k' acc := by
  unfold pushEntry
  by_cases hs : (recLookup k acc).isSome
  · rw [if_pos hs, recLookup_map_other k k' s h]
  · rw [if_neg hs, recLookup_append_other k k' s h]

theorem recLookup_groupFold (key : Subscription → String) :
    ∀ (l : List Subscription) (acc : List (String × List Subscription)) (k : String),
      recLookup k (l.foldl (fun a s => pushEntry a (key s) s) acc) =
        match recLookup k acc with
        | some g => some (g ++ l.filter (fun s => key s == k))
        | none =>
          if l.filter (fun s => key s == k) = [] then none
          else some (l.filter (fun s => key s == k)) := by
  intro l
  induction l with
  | nil => intro acc k; cases h : recLookup k acc <;> simp [h]
  | cons s t ih =>
    intro acc k
    rw [List.foldl_cons, ih]
    by_cases hk : key s = k
    · rw [hk, recLookup_pushEntry_same]
      cases h : recLookup k acc <;> simp [h, List.filter_cons, hk]
    · rw [recLookup_pushEntry_other acc (key s) k s (fun hh => hk hh.symm)]
      have hf : (s :: t).filter (fun x => key x == k) = t.filter (fun x => key x == k) := by
        simp [List.filter_cons, hk]
      rw [hf]

def subUSD : Subscription :=
  ⟨"first", 5, "USD", "monthly", ⟨2024, 0, 1, 0⟩, none⟩

def subEUR : Subscription :=
  ⟨"second", 7, "EUR", "monthly", ⟨2024, 0, 2, 0⟩, none⟩

/-- C7: `groupByCurrency` / `groupByDuration` partition the input: each
key maps exactly to the input subscriptions carrying that key, in input
order, and a key is present iff some subscription has it; two
subscriptions with currencies USD and EUR give exactly the two singleton
groups. -/
theorem groupBy_spec :
    (∀ (l : List Subscription) (k : String),
      recLookup k (groupByCurrency l) =
        if l.filter (fun s => s.currency == k) = [] then none
        else some (l.filter (fun s => s.currency == k))) ∧
    (∀ (l : List Subscription) (k : String),
      recLookup k (groupByDuration l) =
        if l.filter (fun s => s.recurringDuration == k) = [] then none
        else some (l.filter (fun s => s.recurringDuration == k))) ∧
    groupByCurrency [subUSD, subEUR] = [("USD", [subUSD]), ("EUR", [subEUR])] := by
  refine ⟨?_, ?_, ?_⟩
  · intro l k
    exact recLookup_groupFold (fun s => s.currency) l [] k
  · intro l k
    exact recLookup_groupFold (fun s => s.recurringDuration) l [] k
  · decide

/-- The monthly-normalized cost of a subscription, as computed inside the
`getMostCostlySubscription` reducer. -/
def monthlyOf (s : Subscription) : ℚ :=
  calculateMonthlyCost (getTotalPrice s) s.recurringDuration

/-- One step of the `getMostCostlySubscription` reducer: keep the current
element only when it is strictly costlier. -/
def mcStep (a x : Subscription) : Subscription :=
  if monthlyOf x > monthlyOf a then x else a

theorem foldl_mcStep_firstMax : ∀ (t : List Subscription) (a : Subscription),
    ∃ l1 l2, a :: t = l1 ++ (t.foldl mcStep a) :: l2 ∧
      (∀ x ∈ l1, monthlyOf x < monthlyOf (t.foldl mcStep a)) ∧
      (∀ x ∈ l2, monthlyOf x ≤ monthlyOf (t.foldl mcStep a)) := by
  intro t
  induction t with
  | nil => intro a; exact ⟨[], [], rfl, by simp, by simp⟩
  | cons x t' ih =>
    intro a
    rw [List.foldl_cons]
    obtain ⟨l1, l2, heq, h1, h2⟩ := ih (mcStep a x)
    by_cases hxa : monthlyOf x > monthlyOf a
    · have hstep : mcStep a x = x := if_pos hxa
      rw [hstep] at heq h1 h2 ⊢
      refine ⟨a :: l1, l2, ?_, ?_, h2⟩
      · rw [List.cons_append, ← heq]
      · intro z hz
        rcases List.mem_cons.mp hz with rfl | hz'
        · have hxmem : x ∈ l1 ++ t'.foldl mcStep x :: l2 := by
            rw [← heq]; exact List.mem_cons_self x t'
          rcases List.mem_append.mp hxmem with h | h
          · exact lt_trans hxa (h1 x h)
          · rcases List.mem_cons.mp h with he | h
            · rw [← he]; exact hxa
            · exact lt_of_lt_of_le hxa (h2 x h)
        · exact h1 z hz'
    · have hstep : mcStep a x = a := if_neg hxa
      rw [hstep] at heq h1 h2 ⊢
      cases l1 with
      | nil =>
        rw [List.nil_append] at heq
        injection heq with ha ht
        refine ⟨[], x :: l2, ?_, by simp, ?_⟩
        · rw [List.nil_append, ← ha, ← ht]
        · intro z hz
          rcases List.mem_cons.mp hz with rfl | hz'
          · rw [← ha]; exact le_of_not_lt hxa
          · exact h2 z hz'
      | cons b l1' =>
        rw [List.cons_append] at heq
        injection heq with ha ht
        have har : monthlyOf a < monthlyOf (t'.foldl mcStep a) := by
          have hb := h1 b (List.mem_cons_self b l1')
          rw [← ha] at hb
          exact hb
        refine ⟨a :: x :: l1', l2, ?_, ?_, h2⟩
        · conv_lhs => rw [ht]
          simp
        · intro z hz
          rcases List.mem_cons.mp hz with rfl | hz2
          · exact har
          · rcases List.mem_cons.mp hz2 with rfl | hz3
            · exact lt_of_le_of_lt (le_of_not_lt hxa) har
            · exact h1 z (List.mem_cons_of_mem b hz3)

/-- C6: `getMostCostlySubscription` returns `null` exactly on the empty
list; on a non-empty list it returns the first subscription attaining the
maximal monthly-normalized cost: the input splits as `l1 ++ r :: l2` with
everything before `r` strictly cheaper and everything after at most as
costly. -/
theorem getMostCostlySubscription_spec :
    (∀ (l : List Subscription), getMostCostlySubscription l = none ↔ l = []) ∧
    (∀ (l : List Subscription) (r : Subscription), getMostCostlySubscription l = some r →
      ∃ l1 l2, l = l1 ++ r :: l2 ∧
        (∀ x ∈ l1, monthlyOf x < monthlyOf r) ∧
        (∀ x ∈ l2, monthlyOf x ≤ monthlyOf r)) := by
  constructor
  · intro l; cases l <;> simp [getMostCostlySubscription]
  · intro l r h
    cases l with
    | nil => cases h
    | cons a t =>
      unfold getMostCostlySubscription at h
      have hr : t.foldl mcStep a = r := Option.some.inj h
      rw [← hr]
      exact foldl_mcStep_firstMax t a

/-- Witness for C6 on a concrete two-element list whose second element is
strictly costlier. -/
theorem getMostCostlySubscription_spec_witness :
    ∃ l1 l2, [subUSD, subEUR] = l1 ++ subEUR :: l2 ∧
      (∀ x ∈ l1, monthlyOf x < monthlyOf subEUR) ∧
      (∀ x ∈ l2, monthlyOf x ≤ monthlyOf subEUR) :=
  getMostCostlySubscription_spec.2 [subUSD, subEUR] subEUR (by decide)

theorem map_fst_filter_map (l : List Subscription) (now : JSDate)
    (p : Subscription × JSDate → Bool) :
    ((l.map (fun sub => (sub, calculateNextRenewalDate sub now))).filter p).map Prod.fst =
      l.filter (fun sub => p (sub, calculateNextRenewalDate sub now)) := by
  induction l with
  | nil => rfl
  | cons s t ih =>
    rw [List.map_cons, List.filter_cons, List.filter_cons]
    by_cases h : p (s, calculateNextRenewalDate s now) = true
    · rw [if_pos h, if_pos h, List.map_cons, ih]
    · rw [if_neg h, if_neg h, ih]

theorem mem_pairs_shape (l : List Subscription) (now : JSDate) (z : Subscription × JSDate) :
    z ∈ l.map (fun sub => (sub, calculateNextRenewalDate sub now)) →
      z.2 = calculateNextRenewalDate z.1 now := by
  intro hz
  obtain ⟨s, _, rfl⟩ := List.mem_map.mp hz
  rfl

/-- C8: `getRenewalsThisMonth` returns exactly the subscriptions whose
projected next renewal lies between the first day of the current month and
`new Date(y, m+1, 0)` (the last day of the current month), inclusive, in
ascending order of renewal date. -/
theorem getRenewalsThisMonth_spec (subscriptions : List Subscription) (now : JSDate) :
    (getRenewalsThisMonth subscriptions now).Perm
      (subscriptions.filter (fun sub =>
        decide ((mkDate now.year (↑now.month) 1).ts ≤ (calculateNextRenewalDate sub now).ts) &&
        decide ((calculateNextRenewalDate sub now).ts ≤ (mkDate now.year (↑now.month + 1) 0).ts))) ∧
    (getRenewalsThisMonth subscriptions now).Pairwise
      (fun a b => (calculateNextRenewalDate a now).ts ≤ (calculateNextRenewalDate b now).ts) := by
  simp only [getRenewalsThisMonth]
  constructor
  · refine ((List.mergeSort_perm _ _).map Prod.fst).trans ?_
    rw [map_fst_filter_map]
  · have htrans : ∀ a b c : Subscription × JSDate,
        decide (a.2.ts ≤ b.2.ts) = true → decide (b.2.ts ≤ c.2.ts) = true →
        decide (a.2.ts ≤ c.2.ts) = true := by
      intro a b c hab hbc
      simp only [decide_eq_true_eq] at hab hbc ⊢
      exact le_trans hab hbc
    have htotal : ∀ a b : Subscription × JSDate,
        (decide (a.2.ts ≤ b.2.ts) || decide (b.2.ts ≤ a.2.ts)) = true := by
      intro a b
      rcases le_total a.2.ts b.2.ts with h | h <;> simp [h]
    have hsorted := List.sorted_mergeSort htrans htotal
      ((subscriptions.map (fun sub => (sub, calculateNextRenewalDate sub now))).filter
        (fun p => decide ((mkDate now.year (↑now.month) 1).ts ≤ p.2.ts) &&
          decide (p.2.ts ≤ (mkDate now.year (↑now.month + 1) 0).ts)))
    have hshape : ∀ z ∈ ((subscriptions.map
        (fun sub => (sub, calculateNextRenewalDate sub now))).filter
        (fun p => decide ((mkDate now.year (↑now.month) 1).ts ≤ p.2.ts) &&
          decide (p.2.ts ≤ (mkDate now.year (↑now.month + 1) 0).ts))).mergeSort
        (fun a b => decide (a.2.ts ≤ b.2.ts)),
        z.2 = calculateNextRenewalDate z.1 now := by
      intro z hz
      have hz1 : z ∈ (subscriptions.map
          (fun sub => (sub, calculateNextRenewalDate sub now))).filter
          (fun p => decide ((mkDate now.year (↑now.month) 1).ts ≤ p.2.ts) &&
            decide (p.2.ts ≤ (mkDate now.year (↑now.month + 1) 0).ts)) :=
        (List.mergeSort_perm _ _).subset hz
      exact mem_pairs_shape subscriptions now z (List.mem_of_mem_filter hz1)
    refine List.pairwise_map.mpr ?_
    refine hsorted.imp_of_mem ?_
    intro a b ha hb hle
    rw [decide_eq_true_eq] at hle
    rw [hshape a ha, hshape b hb] at hle
    exact hle

/-- Spec §4.3 calendar arithmetic: advance a date by `n` days. -/
def addDays (dt : JSDate) (n : ℤ) : JSDate := setDate dt (dt.day + n)

/-- Spec §4.3 calendar arithmetic: advance a date by `n` calendar months. -/
def addMonths (dt : JSDate) (n : ℤ) : JSDate := setMonth dt (↑dt.month + n)

/-- Spec §4.3 calendar arithmetic: advance a date by `n` calendar years. -/
def addYears (dt : JSDate) (n : ℤ) : JSDate := setFullYear dt (dt.year + n)

/-- Spec §4.3 step 3: project `n` whole periods forward using calendar
arithmetic — days for weekly/bi-weekly (7/14 per period), months for
monthly/quarterly/semi-annually (1/3/6 per period), years for yearly. -/
def advancePeriods (dt : JSDate) (duration : String) (n : ℤ) : JSDate :=
  if duration = "weekly" then addDays dt (7 * n)
  else if duration = "bi-weekly" then addDays dt (14 * n)
  else if duration = "monthly" then addMonths dt n
  else if duration = "quarterly" then addMonths dt (3 * n)
  else if duration = "semi-annually" then addMonths dt (6 * n)
  else addYears dt n

/-- The renewal projection as spec §4.3 words it: return `startDate` if it
is in the future; otherwise compute `cyclesPassed` from the fixed day-count
table, project `cyclesPassed + 1` whole periods forward from `startDate`
with calendar arithmetic, and if the projected date is still `≤ now`
advance by exactly one more period of the same calendar rule. -/
def specNextRenewalDate (subscription : Subscription) (now : JSDate) : JSDate :=
  if subscription.startDate.ts > now.ts then subscription.startDate
  else
    let daysSinceStart := (now.ts - subscription.startDate.ts) / msPerDay
    let cyclesPassed := daysSinceStart / getDaysInDuration subscription.recurringDuration
    let projected :=
      advancePeriods subscription.startDate subscription.recurringDuration (cyclesPassed + 1)
    if projected.ts ≤ now.ts then
      advancePeriods projected subscription.recurringDuration 1
    else projected

/-- C1: for every enumerated duration, `calculateNextRenewalDate` computes
exactly the spec §4.3 two-pass projection: `startDate` if not yet started,
else `cyclesPassed + 1` calendar periods forward from `startDate`, plus at
most one correction period when the projection is still `≤ now`. -/
theorem calculateNextRenewalDate_spec (sub : Subscription) (now : JSDate)
    (hdur : sub.recurringDuration ∈ (["weekly", "bi-weekly", "monthly", "quarterly",
      "semi-annually", "yearly"] : List String)) :
    calculateNextRenewalDate sub now = specNextRenewalDate sub now := by
  simp only [List.mem_cons, List.not_mem_nil, or_false] at hdur
  rcases hdur with h | h | h | h | h | h <;>
    simp only [calculateNextRenewalDate, specNextRenewalDate, advancePeriods, addDays,
      addMonths, addYears, h, String.reduceEq, reduceIte] <;>
    ring_nf

/-- Witness for C1 at a concrete monthly subscription. -/
theorem calculateNextRenewalDate_spec_witness :
    calculateNextRenewalDate subMonthly12 nowFeb10 = specNextRenewalDate subMonthly12 nowFeb10 :=
  calculateNextRenewalDate_spec subMonthly12 nowFeb10 (by decide)

theorem renewal_aux_days (start now : JSDate) (hm : start.month < 12)
    (hle : start.ts ≤ now.ts) (w : ℤ) (hw : w = 7 ∨ w = 14)
    (c : ℤ) (hc : c = (now.ts - start.ts) / msPerDay / w) :
    now.ts < (setDate start (start.day + (c + 1) * w)).ts := by
  rw [ts_setDate start hm]
  rcases hw with rfl | rfl <;> simp only [msPerDay] at hc ⊢ <;> omega

theorem renewal_aux_months (start now : JSDate) (hm : start.month < 12)
    (hle : start.ts ≤ now.ts) (j : ℕ) (hj : j = 1 ∨ j = 3 ∨ j = 6)
    (c : ℤ) (hc : c = (now.ts - start.ts) / msPerDay / (30 * (j : ℤ))) :
    now.ts < (if (setMonth start (↑start.month + (c + 1) * (j : ℤ))).ts ≤ now.ts then
        setMonth (setMonth start (↑start.month + (c + 1) * (j : ℤ)))
          (↑(setMonth start (↑start.month + (c + 1) * (j : ℤ))).month + (j : ℤ))
      else setMonth start (↑start.month + (c + 1) * (j : ℤ))).ts := by
  rcases hj with rfl | rfl | rfl
  · simp only [Nat.cast_one] at hc ⊢
    have hc0 : 0 ≤ c := by simp only [msPerDay] at hc; omega
    rw [show (↑start.month + (c + 1) * 1 : ℤ) =
        ↑start.month + ↑((c + 1).toNat * 1) from by push_cast; omega]
    have hts1 := ts_setMonth_add start hm ((c + 1).toNat * 1)
    have hlb1 := sumLen_lb ((c + 1).toNat * 1) start.year start.month hm
    have hfpm : (setMonth start (↑start.month + ↑((c + 1).toNat * 1))).month < 12 := by
      unfold setMonth; exact normalizeDate_month _ _ _ _
    have hts2 := ts_setMonth_add (setMonth start (↑start.month + ↑((c + 1).toNat * 1))) hfpm 1
    simp only [Nat.cast_one] at hts2
    have hlb2 := sumLen_ge_28 1 (setMonth start (↑start.month + ↑((c + 1).toNat * 1))).year
      (setMonth start (↑start.month + ↑((c + 1).toNat * 1))).month
    by_cases hbr : (setMonth start (↑start.month + ↑((c + 1).toNat * 1))).ts ≤ now.ts
    · rw [if_pos hbr, hts2]
      rw [show (↑((c + 1).toNat * 1) : ℤ) = (c + 1) * 1 from by push_cast; omega] at hlb1
      simp only [msPerDay] at hts1 hts2 hc ⊢
      omega
    · rw [if_neg hbr]
      omega
  · simp only [Nat.cast_ofNat] at hc ⊢
    have hc0 : 0 ≤ c := by simp only [msPerDay] at hc; omega
    rw [show (↑start.month + (c + 1) * 3 : ℤ) =
        ↑start.month + ↑((c + 1).toNat * 3) from by push_cast; omega]
    have hts1 := ts_setMonth_add start hm ((c + 1).toNat * 3)
    have hlb1 := sumLen_lb ((c + 1).toNat * 3) start.year start.month hm
    have hfpm : (setMonth start (↑start.month + ↑((c + 1).toNat * 3))).month < 12 := by
      unfold setMonth; exact normalizeDate_month _ _ _ _
    have hts2 := ts_setMonth_add (setMonth start (↑start.month + ↑((c + 1).toNat * 3))) hfpm 3
    simp only [Nat.cast_ofNat] at hts2
    have hlb2 := sumLen_ge_28 3 (setMonth start (↑start.month + ↑((c + 1).toNat * 3))).year
      (setMonth start (↑start.month + ↑((c + 1).toNat * 3))).month
    by_cases hbr : (setMonth start (↑start.month + ↑((c + 1).toNat * 3))).ts ≤ now.ts
    · rw [if_pos hbr, hts2]
      rw [show (↑((c + 1).toNat * 3) : ℤ) = (c + 1) * 3 from by push_cast; omega] at hlb1
      simp only [msPerDay] at hts1 hts2 hc ⊢
      omega
    · rw [if_neg hbr]
      omega
  · simp only [Nat.cast_ofNat] at hc ⊢
    have hc0 : 0 ≤ c := by simp only [msPerDay] at hc; omega
    rw [show (↑start.month + (c + 1) * 6 : ℤ) =
        ↑start.month + ↑((c + 1).toNat * 6) from by push_cast; omega]
    have hts1 := ts_setMonth_add start hm ((c + 1).toNat * 6)
    have hlb1 := sumLen_lb ((c + 1).toNat * 6) start.year start.month hm
    have hfpm : (setMonth start (↑start.month + ↑((c + 1).toNat * 6))).month < 12 := by
      unfold setMonth; exact normalizeDate_month _ _ _ _
    have hts2 := ts_setMonth_add (setMonth start (↑start.month + ↑((c + 1).toNat * 6))) hfpm 6
    simp only [Nat.cast_ofNat] at hts2
    have hlb2 := sumLen_ge_28 6 (setMonth start (↑start.month + ↑((c + 1).toNat * 6))).year
      (setMonth start (↑start.month + ↑((c + 1).toNat * 6))).month
    by_cases hbr : (setMonth start (↑start.month + ↑((c + 1).toNat * 6))).ts ≤ now.ts
    · rw [if_pos hbr, hts2]
      rw [show (↑((c + 1).toNat * 6) : ℤ) = (c + 1) * 6 from by push_cast; omega] at hlb1
      simp only [msPerDay] at hts1 hts2 hc ⊢
      omega
    · rw [if_neg hbr]
      omega

theorem renewal_aux_years (start now : JSDate) (hm : start.month < 12)
    (hle : start.ts ≤ now.ts)
    (c : ℤ) (hc : c = (now.ts - start.ts) / msPerDay / 365) :
    now.ts < (if (setFullYear start (start.year + c + 1)).ts ≤ now.ts then
        setFullYear (setFullYear start (start.year + c + 1))
          ((setFullYear start (start.year + c + 1)).year + 1)
      else setFullYear start (start.year + c + 1)).ts := by
  have hc0 : 0 ≤ c := by simp only [msPerDay] at hc; omega
  have hts1 := ts_setFullYear start hm (start.year + c + 1)
  have hyadd := daysBeforeYear_add start.year (c + 1).toNat
  rw [show (start.year + ↑((c + 1).toNat) : ℤ) = start.year + c + 1 from by omega] at hyadd
  rw [show ((365 : ℤ) * ↑((c + 1).toNat)) = 365 * (c + 1) from by omega] at hyadd
  have hcd1 := cumDaysBefore_diff (isLeap (start.year + c + 1)) (isLeap start.year) start.month
  have hfpm : (setFullYear start (start.year + c + 1)).month < 12 := by
    unfold setFullYear; exact normalizeDate_month _ _ _ _
  have hts2 := ts_setFullYear (setFullYear start (start.year + c + 1)) hfpm
    ((setFullYear start (start.year + c + 1)).year + 1)
  have hy2 := daysBeforeYear_succ (setFullYear start (start.year + c + 1)).year
  have hcd2 := cumDaysBefore_diff
    (isLeap ((setFullYear start (start.year + c + 1)).year + 1))
    (isLeap (setFullYear start (start.year + c + 1)).year)
    (setFullYear start (start.year + c + 1)).month
  by_cases hbr : (setFullYear start (start.year + c + 1)).ts ≤ now.ts
  · rw [if_pos hbr, hts2]
    simp only [msPerDay] at hts1 hts2 hc ⊢
    split_ifs at hy2 <;> omega
  · rw [if_neg hbr]
    omega

/-- C10: for every started subscription (start ≤ now) with an enumerated
duration, `calculateNextRenewalDate` returns a date strictly after `now`:
the single correction pass suffices for every duration. -/
theorem calculateNextRenewalDate_future (sub : Subscription) (now : JSDate)
    (hsn : Normalized sub.startDate) (hnn : Normalized now)
    (hdur : sub.recurringDuration ∈ (["weekly", "bi-weekly", "monthly", "quarterly",
      "semi-annually", "yearly"] : List String))
    (hle : sub.startDate.ts ≤ now.ts) :
    now.ts < (calculateNextRenewalDate sub now).ts := by
  have hm : sub.startDate.month < 12 := hsn.1
  simp only [List.mem_cons, List.not_mem_nil, or_false] at hdur
  rcases hdur with h | h | h | h | h | h <;>
    simp only [calculateNextRenewalDate, h, String.reduceEq, reduceIte, getDaysInDuration] <;>
    rw [if_neg (show ¬ sub.startDate.ts > now.ts from by omega)]
  · have hfp := renewal_aux_days sub.startDate now hm hle 7 (Or.inl rfl)
      ((now.ts - sub.startDate.ts) / msPerDay / 7) rfl
    rw [if_neg (not_le.mpr hfp)]
    exact hfp
  · have hfp := renewal_aux_days sub.startDate now hm hle 14 (Or.inr rfl)
      ((now.ts - sub.startDate.ts) / msPerDay / 14) rfl
    rw [if_neg (not_le.mpr hfp)]
    exact hfp
  · have hx := renewal_aux_months sub.startDate now hm hle 1 (Or.inl rfl)
      ((now.ts - sub.startDate.ts) / msPerDay / 30) (by norm_num)
    simp only [Nat.cast_one, mul_one] at hx
    simp only [← add_assoc] at hx
    exact hx
  · have hx := renewal_aux_months sub.startDate now hm hle 3 (Or.inr (Or.inl rfl))
      ((now.ts - sub.startDate.ts) / msPerDay / 90) (by norm_num)
    simp only [Nat.cast_ofNat] at hx
    exact hx
  · have hx := renewal_aux_months sub.startDate now hm hle 6 (Or.inr (Or.inr rfl))
      ((now.ts - sub.startDate.ts) / msPerDay / 180) (by norm_num)
    simp only [Nat.cast_ofNat] at hx
    exact hx
  · have hx := renewal_aux_years sub.startDate now hm hle
      ((now.ts - sub.startDate.ts) / msPerDay / 365) rfl
    exact hx

/-- Witness for C10 at a concrete started monthly subscription. -/
theorem calculateNextRenewalDate_future_witness :
    Normalized subMonthly12.startDate ∧ Normalized nowFeb10 ∧
    subMonthly12.recurringDuration ∈ (["weekly", "bi-weekly", "monthly", "quarterly",
      "semi-annually", "yearly"] : List String) ∧
    subMonthly12.startDate.ts ≤ nowFeb10.ts ∧
    nowFeb10.ts < (calculateNextRenewalDate subMonthly12 nowFeb10).ts :=
  ⟨by decide, by decide, by decide, by decide,
    calculateNextRenewalDate_future subMonthly12 nowFeb10
      (by decide) (by decide) (by decide) (by decide)⟩
